import Mathlib

/-!
Shallow embedding of `PVDetector.py` (PVDetector v2.0.0).

Modelling conventions:
* Python strings are modelled as `List Char` (`Text` below); string
  literals from the source appear as Lean string literals via `.data`.
* The mappings file is represented by its list of lines, i.e. by the
  result of Python's `str.splitlines()` (lines therefore contain no
  newline character).  The empty mappings string corresponds to the
  empty list of lines, matching Python truthiness (`"" .splitlines() = []`).
* Python `set` values are modelled as duplicate-free lists (`List.dedup`);
  a set's iteration order is implementation defined in Python and is
  modelled here by the order `List.dedup` produces.
* The `owlready2` ontology is an external collaborator (spec section 1);
  it is modelled as a finite association list from a normalized term to
  the list of ancestor IRIs that `.ancestors()` reports for it.
* The regular expressions of the source are embedded operationally,
  reproducing Python `re` semantics on the fragment the theorems use:
  greedy `.*`/`.+`/`[^"]+` with backtracking (the class `[^"]+` also
  matches newlines, so with `re.M` a mapping-pattern match can cross
  lines), `.` not matching a newline, `$` also matching before a final
  newline, `\b` word boundaries over ASCII word characters, `re.I` as
  character-wise lower-casing, and unescaped phrase interpolation with
  literal characters, the `.` wildcard, `*` repetition and top-level
  `|` alternation.
-/

abbrev Text := List Char

/-- Character-wise lower casing, modelling Python `str.lower()` /
`re.I` comparison on ASCII text. -/
def lowerText (s : Text) : Text := s.map Char.toLower

/-- Models `phrase.lower().replace(" ", "_")` from `filter_implicit`
(PVDetector.py line 122). -/
def normalizePhrase (p : Text) : Text :=
  (lowerText p).map (fun c => if c = ' ' then '_' else c)

/-- Models `a.replace("_", " ")` from `filter_implicit`
(PVDetector.py line 130). -/
def underscoreToSpace (a : Text) : Text :=
  a.map (fun c => if c = '_' then ' ' else c)

/-- `leadsText needle hay` holds when `needle` is a leading run of `hay`
(character-wise, exact comparison). -/
def leadsText : Text → Text → Bool
  | [], _ => true
  | _ :: _, [] => false
  | a :: as, b :: bs => a == b && leadsText as bs

/-- Python's substring test `needle in hay` on strings. -/
def containsSub (needle hay : Text) : Bool :=
  (List.range (hay.length + 1)).any (fun s => leadsText needle (hay.drop s))

/-- Splits a list at the last occurrence of `c`:
`lastSplitOn c cs = some (pre, post)` iff `cs = pre ++ c :: post` with
`c ∉ post`. -/
def lastSplitOn (c : Char) : Text → Option (Text × Text)
  | [] => none
  | x :: xs =>
    match lastSplitOn c xs with
    | some pr => some (x :: pr.1, pr.2)
    | none => if x = c then some ([], xs) else none

/-- Splits a list at the first occurrence of `c`. -/
def firstSplitOn (c : Char) : Text → Option (Text × Text)
  | [] => none
  | x :: xs =>
    if x = c then some ([], xs)
    else
      match firstSplitOn c xs with
      | some pr => some (x :: pr.1, pr.2)
      | none => none

/-- Splits off a single final newline, if present.  Python `$` (without
`re.M`) matches at the end of the string and also just before a newline
that ends the string; the returned suffix is the part a full
`^...$` match cannot cover. -/
def splitFinalNewline (cs : Text) : Text × Text :=
  match cs.getLast? with
  | some c => if c = '\n' then (cs.dropLast, ['\n']) else (cs, [])
  | none => (cs, [])

/-- Models `re.sub(pat, repl, s)` for an anchored pattern `^...$` whose
pieces (`.*`, `.+`, character classes used in this program) cannot cross
a newline: `f` computes the replacement for the newline-free core of the
string, `none` meaning the pattern does not match (in which case
`re.sub` returns the string unchanged). -/
def subFullMatch (f : Text → Option Text) (cs : Text) : Text :=
  let pr := splitFinalNewline cs
  if pr.1.any (fun c => c == '\n') then cs
  else
    match f pr.1 with
    | some r => r ++ pr.2
    | none => cs

/-- The backtracking of `.*<(.+)` in `get_leaks`' pattern: the suffix of
`body` after the last `'<'` that is followed by at least one character.
Returns `none` when no `'<'` with a nonempty suffix exists. -/
def capAfterLt : Text → Option Text
  | [] => none
  | x :: xs =>
    match capAfterLt xs with
    | some r => some r
    | none => if x = '<' ∧ xs ≠ [] then some xs else none

/-- The full match of `^.*<(.+)>.*$` (PVDetector.py line 59) on a
newline-free string: greedy `.*<` picks the last usable `'<'`, greedy
`(.+)>` then extends the capture to the last `'>'` of the string. -/
def matchAngle (cs : Text) : Option Text :=
  match lastSplitOn '>' cs with
  | none => none
  | some pr => capAfterLt pr.1

/-- Models `re.sub(r"^.*<(.+)>.*$", r"\1", a)` applied to one
`Statement` attribute value (PVDetector.py line 59). -/
def stripStatement (cs : Text) : Text := subFullMatch matchAngle cs

/-- Models `get_leaks` (PVDetector.py lines 51-59).  The XML parsing by
`xml.etree.ElementTree` is external input decoding; the function is
modelled on the list of extracted `Statement` attribute values. -/
def get_leaks (statements : List Text) : List Text :=
  statements.map stripStatement

/-- The full match of `^.+#(.*)$` (PVDetector.py line 126) on a
newline-free string: strips everything up to the last `'#'`, which must
be preceded by at least one character. -/
def matchHash (cs : Text) : Option Text :=
  match lastSplitOn '#' cs with
  | none => none
  | some pr => if pr.1 = [] then none else some pr.2

/-- Models `re.sub(r"^.+#(.*)$", r"\1", a.iri)` (PVDetector.py
line 126): the local name after the `'#'` of an ancestor IRI. -/
def iriLocalName : Text → Text := subFullMatch matchHash

/-- Atoms of the modelled Python-regex fragment: a literal character or
the `.` wildcard.  The source interpolates phrases into the search
pattern unescaped (`r"\b%s\b" % a`), so phrase characters are Python
pattern syntax. -/
inductive PatAtom where
  | lit : Char → PatAtom
  | dot : PatAtom
deriving DecidableEq

/-- One element of an alternation branch: an atom, possibly starred. -/
inductive PatElem where
  | once : PatAtom → PatElem
  | star : PatAtom → PatElem
deriving DecidableEq

/-- One atom against one text character, under `re.I` (character-wise
lower-casing on ASCII). -/
def atomMatches : PatAtom → Char → Bool
  | PatAtom.lit c, d => c.toLower == d.toLower
  | PatAtom.dot, d => d != '\n'

/-- Length of the maximal leading run of characters matching `a`. -/
def atomRun (a : PatAtom) : Text → Nat
  | [] => 0
  | c :: t => if atomMatches a c then atomRun a t + 1 else 0

/-- All prefix lengths an alternation branch can consume from `t`
(a starred atom may consume any number of matching characters). -/
def seqEnds : List PatElem → Text → List Nat
  | [], _ => [0]
  | PatElem.once a :: es, t =>
    match t with
    | [] => []
    | c :: t2 =>
      if atomMatches a c then (seqEnds es t2).map (fun k => k + 1) else []
  | PatElem.star a :: es, t =>
    (List.range (atomRun a t + 1)).flatMap
      (fun k => (seqEnds es (t.drop k)).map (fun m => m + k))

/-- Regex metacharacters of Python `re` that the embedding does not
model; a phrase containing one is outside the modelled fragment. -/
def unsupportedMeta (c : Char) : Bool :=
  c = '^' || c = '$' || c = '+' || c = '?' || c = '\x7b' || c = '\x7d' ||
    c = '[' || c = ']' || c = '\\' || c = '(' || c = ')'

/-- A character Python `re` treats as matching itself (no metacharacter
at all). -/
def plainChar (c : Char) : Bool :=
  !(unsupportedMeta c || c = '.' || c = '*' || c = '|')

/-- The atom denoted by one supported phrase character. -/
def mkAtom (c : Char) : PatAtom :=
  if c = '.' then PatAtom.dot else PatAtom.lit c

/-- Splits a phrase at its `|` characters — in the interpolated pattern
they are top-level alternation separators. -/
def splitPipe : Text → List Text
  | [] => [[]]
  | c :: t =>
    if c = '|' then [] :: splitPipe t
    else
      match splitPipe t with
      | [] => [[c]]
      | b :: bs => (c :: b) :: bs

/-- Parses one alternation branch: a `*` quantifies the preceding atom;
a `*` with nothing to repeat (also a doubled `*`) makes the whole
pattern raise `re.error`, and an unmodelled metacharacter leaves the
fragment — both give `none`. -/
def parseBranchAux : Text → Option (List PatElem)
  | [] => some []
  | c :: t =>
    if c = '*' then none
    else if unsupportedMeta c then none
    else
      match t with
      | [] => some [PatElem.once (mkAtom c)]
      | t0 :: t2 =>
        if t0 = '*' then
          Option.map (fun es => PatElem.star (mkAtom c) :: es) (parseBranchAux t2)
        else
          Option.map (fun es => PatElem.once (mkAtom c) :: es) (parseBranchAux (t0 :: t2))

/-- How a phrase becomes a pattern when interpolated unescaped by
`r"\b%s\b" % a` (PVDetector.py lines 70 and 130): the list of
top-level alternation branches.  `none` marks a phrase outside the
modelled fragment — an unmodelled metacharacter, or a pattern on which
`re` raises an error (there the real program aborts instead of
answering).  No theorem of this development depends on the matcher's
value at `none`. -/
def parseAll : List Text → Option (List (List PatElem))
  | [] => some []
  | b :: bs =>
    match parseBranchAux b, parseAll bs with
    | some pb, some ps => some (pb :: ps)
    | _, _ => none

def toPattern (phrase : Text) : Option (List (List PatElem)) :=
  parseAll (splitPipe phrase)

/-- Python `\w` on ASCII: letters, digits and underscore. -/
def isWordChar (c : Char) : Bool := c.isAlphanum || c == '_'

/-- Whether position `i` of `text` holds a word character. -/
def wordAt (text : Text) (i : Nat) : Bool :=
  match text.drop i with
  | c :: _ => isWordChar c
  | [] => false

/-- Python `\b` at position `i`: a word character on exactly one side. -/
def boundaryAt (text : Text) (i : Nat) : Bool :=
  match i with
  | 0 => wordAt text 0
  | Nat.succ j => wordAt text j != wordAt text (j + 1)

/-- One branch tried at position `s`.  In `\b<phrase>\b`, alternation
has lowest precedence, so only the first branch carries the leading
`\b` and only the last branch carries the trailing `\b`. -/
def branchHit (text : Text) (s : Nat) (lead trail : Bool) (b : List PatElem) : Bool :=
  (!lead || boundaryAt text s) &&
    (seqEnds b (text.drop s)).any (fun k => !trail || boundaryAt text (s + k))

/-- The branches after the first, tried at position `s`: middle
branches carry no boundary assertion, the last carries the trailing
one. -/
def altHit (text : Text) (s : Nat) : List (List PatElem) → Bool
  | [] => false
  | [b] => branchHit text s false true b
  | b :: bs => branchHit text s false false b || altHit text s bs

/-- `re.search` of the full interpolated pattern against `text`. -/
def patternSearch (br : List (List PatElem)) (text : Text) : Bool :=
  match br with
  | [] => false
  | [b] => (List.range (text.length + 1)).any (fun s => branchHit text s true true b)
  | b :: bs =>
    (List.range (text.length + 1)).any (fun s =>
      branchHit text s true false b || altHit text s bs)

/-- Models `re.search(r"\b%s\b" % a, text, re.I)` truthiness
(PVDetector.py lines 70 and 130). -/
def wordBoundSearch (p : Option (List (List PatElem))) (text : Text) : Bool :=
  match p with
  | some br => patternSearch br text
  | none => false

/-- The full match of `^"([^"]+)",.*$` on one mapping line
(PVDetector.py lines 69 and 102): `some (phrase, fragment)` when the
line has the shape `"<phrase>",<fragment>`, `none` otherwise. -/
def lineParts (l : Text) : Option (Text × Text) :=
  match l with
  | '\"' :: rest =>
    let cap := rest.takeWhile (fun c => c != '\"')
    match rest.drop cap.length with
    | '\"' :: ',' :: frag => if cap.isEmpty then none else some (cap, frag)
    | _ => none
  | _ => none

/-- Models `re.sub(r'^"([^"]+)",.*$', r"\1", line)`: the phrase of a
well-formed line, the raw line unchanged otherwise. -/
def parseLine (l : Text) : Text :=
  match lineParts l with
  | some pr => pr.1
  | none => l

/-- Whether the line matches the mapping-line pattern at all. -/
def wellFormedLine (l : Text) : Bool := (lineParts l).isSome

/-- The cross-line part of a mapping-pattern match: in
`re.sub` with pattern `^"([^"]+)",.*$` and `re.M`
(PVDetector.py line 69) the class `[^"]+` also matches newlines, so a
match opened by a line starting with `"` extends to the first `"` of
the remaining text — possibly lines further down — which must be
followed by `,`.  Given the rest of the opening line and the following
lines, returns the capture as the list of line segments it covers,
together with the number of following input lines the match absorbs;
`none` when no match completes at this line start. -/
def spanCapture : Text → List Text → Option (List Text × Nat)
  | t, ls =>
    match firstSplitOn '\"' t with
    | some pr =>
      match pr.2 with
      | [] => none
      | d :: _ => if d = ',' then some ([pr.1], 0) else none
    | none =>
      match ls with
      | [] => none
      | l2 :: ls2 =>
        Option.map (fun pr2 => (t :: pr2.1, pr2.2 + 1)) (spanCapture l2 ls2)

/-- The `re.M` substitution of `get_policy_phrases`, line-wise, with
fuel for structural recursion (`subLines` supplies fuel equal to the
number of lines; every step consumes at least one line, so the
fuel-exhausted branch is never reached).  A line opening a match is
replaced by its capture's line segments and the absorbed lines are
dropped; an empty capture or a `"` not followed by `,` means the match
fails and the line is kept verbatim, as is every other line. -/
def subLinesF : Nat → List Text → List Text
  | _, [] => []
  | 0, l :: ls => l :: ls
  | Nat.succ fuel, l :: ls =>
    match l with
    | [] => [] :: subLinesF fuel ls
    | x :: t =>
      if x = '\"' then
        match spanCapture t ls with
        | some pr =>
          if pr.1 = [[]] then l :: subLinesF fuel ls
          else pr.1 ++ subLinesF fuel (ls.drop pr.2)
        | none => l :: subLinesF fuel ls
      else l :: subLinesF fuel ls

/-- The mappings text after the `re.M` substitution, as lines (the
capture's embedded newlines become line separators again under the
subsequent `splitlines`). -/
def subLines (ls : List Text) : List Text := subLinesF ls.length ls

/-- A line that opens a mapping-pattern match closes its quote within
the same line.  When every line of the mappings satisfies this, the
`re.M` substitution acts exactly per line. -/
def lineSelfContained (l : Text) : Bool :=
  match l with
  | '\"' :: t => (firstSplitOn '\"' t).isSome
  | _ => true

/-- Models `phrases_from_method` (PVDetector.py lines 94-102): keeps the
lines that contain `method` as a substring (`method in a` checks the
whole line), maps each kept line through the phrase substitution, and
collects the results as a set. -/
def phrases_from_method (method : Text) (mlines : List Text) : List Text :=
  ((mlines.filter (fun l => containsSub method l)).map parseLine).dedup

/-- Models `get_policy_phrases` (PVDetector.py lines 61-70): the set of
lines of the substituted mappings text (the `re.M` substitution
followed by `splitlines`), filtered by a case-insensitive word-bounded
search of each one, as a pattern, in the policy. -/
def get_policy_phrases (policy : Text) (mlines : List Text) : List Text :=
  ((subLines mlines).dedup).filter
    (fun a => wordBoundSearch (toPattern a) policy)

/-- `leak_phrases.intersection(set(policy_phrases))` emptiness test
(PVDetector.py line 88). -/
def interEmpty (xs ys : List Text) : Bool :=
  xs.all (fun p => !(ys.contains p))

/-- Models `filter_explicit` (PVDetector.py lines 73-91). -/
def filter_explicit (leaks : List Text) (mlines : List Text)
    (policy_phrases : List Text) : List Text :=
  if policy_phrases = [] ∨ mlines = [] then leaks
  else
    leaks.filter
      (fun leak => interEmpty (phrases_from_method leak mlines) policy_phrases)

/-- The loaded ontology: a finite map from normalized term to the
ancestor IRIs its `.ancestors()` call reports. -/
abbrev Ontology := List (Text × List Text)

/-- Modelled from the spec: the external `owlready2` engine's lookup
`ontology[term].ancestors()` (PVDetector.py line 122).  The engine
itself is not part of this repository; per spec section 4.5 a term with
no taxonomy node yields an empty ancestor sequence. -/
def ancestorsOf (onto : Ontology) (phrase : Text) : List Text :=
  match onto.lookup (normalizePhrase phrase) with
  | some l => l
  | none => []

/-- The ancestor list after IRI-prefix stripping and removal of the
`thing` and `information` nodes (PVDetector.py lines 126-128). -/
def cleanAncestors (onto : Ontology) (phrase : Text) : List Text :=
  ((ancestorsOf onto phrase).map iriLocalName).filter
    (fun a => !(lowerText a == "thing".data || lowerText a == "information".data))

/-- `abstract_phrases` for one phrase (PVDetector.py line 130): the
cleaned ancestors whose underscore-to-space form occurs word-bounded,
case-insensitively, in the policy. -/
def occSubset (policy : Text) (onto : Ontology) (phrase : Text) : List Text :=
  (cleanAncestors onto phrase).filter
    (fun a => wordBoundSearch (toPattern (underscoreToSpace a)) policy)

/-- The inner `for phrase in leak_phrases` loop of `filter_implicit`
(PVDetector.py lines 120-133): `some abstract_phrases` for the first
phrase that produces evidence (the `break`), `none` when the loop
exhausts the phrases. -/
def classifyPhrases (policy : Text) (onto : Ontology) : List Text → Option (List Text)
  | [] => none
  | p :: ps =>
    if ancestorsOf onto p = [] then classifyPhrases policy onto ps
    else if occSubset policy onto p = [] then classifyPhrases policy onto ps
    else some (occSubset policy onto p)

/-- Python `leak in weak_violations` (dict key membership). -/
def dictMem (d : List (Text × List Text)) (k : Text) : Bool :=
  d.any (fun kv => kv.1 == k)

/-- Python `weak_violations[leak] = v`: updates the value in place when
the key exists, otherwise appends the new entry. -/
def dictInsert (d : List (Text × List Text)) (k : Text) (v : List Text) :
    List (Text × List Text) :=
  if dictMem d k then d.map (fun kv => if kv.1 == k then (k, v) else kv)
  else d ++ [(k, v)]

/-- The `for leak in leaks` loop of `filter_implicit`
(PVDetector.py lines 118-136), threading the `weak_violations` dict and
the `strong_violations` list. -/
def filter_implicit_go (mlines : List Text) (policy : Text) (onto : Ontology) :
    List Text → List (Text × List Text) → List Text →
      List Text × List (Text × List Text)
  | [], weak, strong => (strong, weak)
  | leak :: rest, weak, strong =>
    match classifyPhrases policy onto (phrases_from_method leak mlines) with
    | some ev => filter_implicit_go mlines policy onto rest (dictInsert weak leak ev) strong
    | none =>
      if dictMem weak leak then filter_implicit_go mlines policy onto rest weak strong
      else filter_implicit_go mlines policy onto rest weak (strong ++ [leak])

/-- Models `filter_implicit` (PVDetector.py lines 105-138): returns
`(strong_violations, weak_violations)`. -/
def filter_implicit (leaks : List Text) (mlines : List Text) (policy : Text)
    (onto : Ontology) : List Text × List (Text × List Text) :=
  filter_implicit_go mlines policy onto leaks [] []

/-- Follows the spec's words (section 4.2, claim C1): the set of phrases
of those well-formed mapping lines whose pattern fragment is a literal
substring of the leak identifier. -/
def phrasesForLeak_spec (leak : Text) (mlines : List Text) : List Text :=
  (((mlines.filterMap lineParts).filter
      (fun pr => containsSub pr.2 leak)).map (fun pr => pr.1)).dedup

/-- Follows the spec's words (section 4.1, claim C4): the content
between the first `'<'` and the last `'>'` of a statement value. -/
def betweenFirstLtLastGt (s : Text) : Option Text :=
  match firstSplitOn '<' s with
  | none => none
  | some pr =>
    match lastSplitOn '>' pr.2 with
    | none => none
    | some pr2 => some pr2.1

/-- Follows the claim's words (claim C6): the phrase occurs in the text
as a case-insensitive whole-word run, the phrase taken as a literal
string (no pattern interpretation). -/
def literalWholeWordMatch (phrase text : Text) : Bool :=
  (List.range (text.length + 1)).any (fun s =>
    boundaryAt text s
      && decide (lowerText ((text.drop s).take phrase.length) = lowerText phrase)
      && boundaryAt text (s + phrase.length))

/-! ### Helper lemmas: splitting and the angle-bracket capture -/

theorem lastSplitOn_eq_none (c : Char) (cs : Text) (h : c ∉ cs) :
    lastSplitOn c cs = none := by
  induction cs with
  | nil => rfl
  | cons x xs ih =>
    simp only [List.mem_cons, not_or] at h
    have hx : ¬ x = c := fun e => h.1 e.symm
    simp [lastSplitOn, ih h.2, hx]

theorem lastSplitOn_append (c : Char) (xs post : Text) (h : c ∉ post) :
    lastSplitOn c (xs ++ c :: post) = some (xs, post) := by
  induction xs with
  | nil => simp [lastSplitOn, lastSplitOn_eq_none c post h]
  | cons y ys ih => simp [lastSplitOn, ih]

theorem capAfterLt_eq_none (cap : Text) (h : '<' ∉ cap.dropLast) :
    capAfterLt cap = none := by
  induction cap with
  | nil => rfl
  | cons x xs ih =>
    cases xs with
    | nil => simp [capAfterLt]
    | cons y ys =>
      rw [List.dropLast_cons₂] at h
      simp only [List.mem_cons, not_or] at h
      have hx : ¬ x = '<' := fun e => h.1 e.symm
      rw [capAfterLt, ih h.2]
      simp [hx]

theorem capAfterLt_append (pre cap : Text) (h1 : capAfterLt cap = none)
    (h2 : cap ≠ []) : capAfterLt (pre ++ '<' :: cap) = some cap := by
  induction pre with
  | nil => simp [capAfterLt, h1, h2]
  | cons y ys ih => simp [capAfterLt, ih]

theorem splitFinalNewline_no_newline (cs : Text) (h : '\n' ∉ cs) :
    splitFinalNewline cs = (cs, []) := by
  unfold splitFinalNewline
  cases hl : cs.getLast? with
  | none => rfl
  | some c =>
    have hc : c ≠ '\n' := fun e => h (e ▸ List.mem_of_mem_getLast? hl)
    simp [hc]

theorem subFullMatch_no_newline (f : Text → Option Text) (cs : Text)
    (h : '\n' ∉ cs) : subFullMatch f cs = (f cs).getD cs := by
  have hany : cs.any (fun c => c == '\n') = false := by
    rw [List.any_eq_false]
    intro x hx
    simp only [beq_iff_eq]
    exact fun e => h (e ▸ hx)
  rw [subFullMatch, splitFinalNewline_no_newline cs h]
  simp only [hany]
  cases f cs <;> simp

theorem stripStatement_decomp (pre cap post : Text) (hpre : '\n' ∉ pre)
    (hcap : '\n' ∉ cap) (hpost : '\n' ∉ post) (hgt : '>' ∉ post)
    (hne : cap ≠ []) (hlt : '<' ∉ cap.dropLast) :
    stripStatement (pre ++ '<' :: (cap ++ '>' :: post)) = cap := by
  have hno : '\n' ∉ pre ++ '<' :: (cap ++ '>' :: post) := by
    intro hm
    rcases List.mem_append.1 hm with hm | hm
    · exact hpre hm
    · rcases List.mem_cons.1 hm with hm | hm
      · exact absurd hm (by decide)
      · rcases List.mem_append.1 hm with hm | hm
        · exact hcap hm
        · rcases List.mem_cons.1 hm with hm | hm
          · exact absurd hm (by decide)
          · exact hpost hm
  rw [stripStatement, subFullMatch_no_newline _ _ hno]
  have hassoc : pre ++ '<' :: (cap ++ '>' :: post) = (pre ++ '<' :: cap) ++ '>' :: post := by
    simp
  rw [hassoc, matchAngle, lastSplitOn_append '>' _ post hgt]
  simp [capAfterLt_append pre cap (capAfterLt_eq_none cap hlt) hne]

/-! ### Helper lemmas: the weak-violations dictionary -/

theorem dictMem_eq_isSome_lookup (d : List (Text × List Text)) (k : Text) :
    dictMem d k = (List.lookup k d).isSome := by
  induction d with
  | nil => rfl
  | cons kv d ih =>
    obtain ⟨a, b⟩ := kv
    by_cases h : a = k
    · simp [dictMem, List.lookup_cons, beq_iff_eq.2 h, beq_iff_eq.2 h.symm]
    · have hb : (a == k) = false := beq_eq_false_iff_ne.2 h
      have hb2 : (k == a) = false := beq_eq_false_iff_ne.2 (fun e => h e.symm)
      simp only [dictMem, List.any_cons, List.lookup_cons, hb, hb2, Bool.false_or]
      exact ih

theorem lookup_map_update_self (d : List (Text × List Text)) (k : Text)
    (v : List Text) (h : dictMem d k = true) :
    List.lookup k (d.map (fun kv => if kv.1 == k then (k, v) else kv)) = some v := by
  induction d with
  | nil => simp [dictMem] at h
  | cons kv d ih =>
    obtain ⟨a, b⟩ := kv
    by_cases hk : a = k
    · subst hk
      simp [List.lookup_cons]
    · have hb : (a == k) = false := beq_eq_false_iff_ne.2 hk
      have hb2 : (k == a) = false := beq_eq_false_iff_ne.2 (fun e => hk e.symm)
      have h' : dictMem d k = true := by
        simp only [dictMem, List.any_cons, hb, Bool.false_or] at h
        exact h
      simp only [List.map_cons, hb, Bool.false_eq_true, if_false, List.lookup_cons, hb2]
      exact ih h'

theorem lookup_append_self (d : List (Text × List Text)) (k : Text) (v : List Text)
    (h : dictMem d k = false) :
    List.lookup k (d ++ [(k, v)]) = some v := by
  induction d with
  | nil => simp [List.lookup_cons]
  | cons kv d ih =>
    obtain ⟨a, b⟩ := kv
    simp only [dictMem, List.any_cons, Bool.or_eq_false_iff] at h
    have hb2 : (k == a) = false :=
      beq_eq_false_iff_ne.2 (fun e => (beq_eq_false_iff_ne.1 h.1) e.symm)
    simp only [List.cons_append, List.lookup_cons, hb2]
    exact ih h.2

theorem lookup_dictInsert_self (d : List (Text × List Text)) (k : Text) (v : List Text) :
    List.lookup k (dictInsert d k v) = some v := by
  unfold dictInsert
  by_cases h : dictMem d k = true
  · rw [if_pos h]
    exact lookup_map_update_self d k v h
  · rw [if_neg h]
    exact lookup_append_self d k v (by simpa using h)

theorem lookup_map_update_ne (d : List (Text × List Text)) (k k' : Text)
    (v : List Text) (h : k' ≠ k) :
    List.lookup k' (d.map (fun kv => if kv.1 == k then (k, v) else kv))
      = List.lookup k' d := by
  induction d with
  | nil => rfl
  | cons kv d ih =>
    obtain ⟨a, b⟩ := kv
    by_cases hk : a = k
    · have hbk : (k' == k) = false := beq_eq_false_iff_ne.2 h
      have hba : (k' == a) = false := beq_eq_false_iff_ne.2 (fun e => h (e.trans hk))
      simp only [List.map_cons, beq_iff_eq.2 hk, if_true, List.lookup_cons, hbk, hba]
      exact ih
    · have hb : (a == k) = false := beq_eq_false_iff_ne.2 hk
      by_cases h2 : k' = a
      · simp only [List.map_cons, hb, Bool.false_eq_true, if_false, List.lookup_cons,
          beq_iff_eq.2 h2]
      · simp only [List.map_cons, hb, Bool.false_eq_true, if_false, List.lookup_cons,
          beq_eq_false_iff_ne.2 h2]
        exact ih

theorem lookup_append_ne (d : List (Text × List Text)) (k k' : Text)
    (v : List Text) (h : k' ≠ k) :
    List.lookup k' (d ++ [(k, v)]) = List.lookup k' d := by
  induction d with
  | nil =>
    simp only [List.nil_append, List.lookup_cons, beq_eq_false_iff_ne.2 h]
  | cons kv d ih =>
    obtain ⟨a, b⟩ := kv
    by_cases h2 : k' = a
    · simp only [List.cons_append, List.lookup_cons, beq_iff_eq.2 h2]
    · simp only [List.cons_append, List.lookup_cons, beq_eq_false_iff_ne.2 h2]
      exact ih

theorem lookup_dictInsert_ne (d : List (Text × List Text)) (k k' : Text)
    (v : List Text) (h : k' ≠ k) :
    List.lookup k' (dictInsert d k v) = List.lookup k' d := by
  unfold dictInsert
  by_cases hm : dictMem d k = true
  · rw [if_pos hm]
    exact lookup_map_update_ne d k k' v h
  · rw [if_neg hm]
    exact lookup_append_ne d k k' v h

theorem dictMem_dictInsert_self (d : List (Text × List Text)) (k : Text)
    (v : List Text) : dictMem (dictInsert d k v) k = true := by
  rw [dictMem_eq_isSome_lookup, lookup_dictInsert_self]
  rfl

theorem dictMem_dictInsert_of_mem (d : List (Text × List Text)) (k k' : Text)
    (v : List Text) (h : dictMem d k' = true) :
    dictMem (dictInsert d k v) k' = true := by
  by_cases he : k' = k
  · rw [he]
    exact dictMem_dictInsert_self d k v
  · rw [dictMem_eq_isSome_lookup, lookup_dictInsert_ne d k k' v he,
      ← dictMem_eq_isSome_lookup]
    exact h

theorem mem_dictInsert (d : List (Text × List Text)) (k : Text) (v : List Text)
    (kv : Text × List Text) (h : kv ∈ dictInsert d k v) :
    kv = (k, v) ∨ kv ∈ d := by
  unfold dictInsert at h
  by_cases hm : dictMem d k = true
  · rw [if_pos hm] at h
    obtain ⟨kv0, hkv0, he⟩ := List.mem_map.1 h
    by_cases hk : kv0.1 = k
    · left
      rw [← he, if_pos (beq_iff_eq.2 hk)]
    · right
      rw [← he, if_neg (by simp [beq_eq_false_iff_ne.2 hk])]
      exact hkv0
  · rw [if_neg hm] at h
    rcases List.mem_append.1 h with h | h
    · exact Or.inr h
    · exact Or.inl (by simpa using h)

/-! ### Helper lemmas: the phrase loop of the implicit classifier -/

theorem occSubset_eq_nil_of_no_ancestors (policy : Text) (onto : Ontology)
    (p : Text) (h : ancestorsOf onto p = []) : occSubset policy onto p = [] := by
  simp [occSubset, cleanAncestors, h]

theorem classifyPhrases_cons_skip (policy : Text) (onto : Ontology) (p : Text)
    (ps : List Text) (h : occSubset policy onto p = []) :
    classifyPhrases policy onto (p :: ps) = classifyPhrases policy onto ps := by
  by_cases ha : ancestorsOf onto p = []
  · simp [classifyPhrases, ha]
  · simp [classifyPhrases, ha, h]

theorem classifyPhrases_cons_hit (policy : Text) (onto : Ontology) (p : Text)
    (ps : List Text) (h : occSubset policy onto p ≠ []) :
    classifyPhrases policy onto (p :: ps) = some (occSubset policy onto p) := by
  have ha : ¬ ancestorsOf onto p = [] :=
    fun e => h (occSubset_eq_nil_of_no_ancestors policy onto p e)
  simp [classifyPhrases, ha, h]

theorem classifyPhrases_first (policy : Text) (onto : Ontology) (qs : List Text)
    (p : Text) (rest : List Text) (h1 : ∀ q ∈ qs, occSubset policy onto q = [])
    (h2 : occSubset policy onto p ≠ []) :
    classifyPhrases policy onto (qs ++ p :: rest) = some (occSubset policy onto p) := by
  induction qs with
  | nil => simpa using classifyPhrases_cons_hit policy onto p rest h2
  | cons q qs ih =>
    rw [List.cons_append, classifyPhrases_cons_skip policy onto q _ (h1 q (by simp))]
    exact ih (fun q' hq' => h1 q' (by simp [hq']))

theorem classifyPhrases_some (policy : Text) (onto : Ontology) (ps : List Text)
    (E : List Text) (h : classifyPhrases policy onto ps = some E) :
    ∃ p ∈ ps, E = occSubset policy onto p := by
  induction ps with
  | nil => simp [classifyPhrases] at h
  | cons p ps ih =>
    by_cases hp : occSubset policy onto p = []
    · rw [classifyPhrases_cons_skip policy onto p ps hp] at h
      obtain ⟨p', hp', he⟩ := ih h
      exact ⟨p', by simp [hp'], he⟩
    · rw [classifyPhrases_cons_hit policy onto p ps hp] at h
      injection h with h
      exact ⟨p, by simp, h.symm⟩

/-! ### Helper lemmas: the leak loop of the implicit classifier -/

theorem filter_implicit_go_strong_mono (mlines : List Text) (policy : Text)
    (onto : Ontology) (leaks : List Text) :
    ∀ (weak : List (Text × List Text)) (strong : List Text) (l : Text),
      l ∈ strong → l ∈ (filter_implicit_go mlines policy onto leaks weak strong).1 := by
  induction leaks with
  | nil =>
    intro weak strong l hl
    simpa [filter_implicit_go] using hl
  | cons leak rest ih =>
    intro weak strong l hl
    rw [filter_implicit_go]
    cases classifyPhrases policy onto (phrases_from_method leak mlines) with
    | some ev => exact ih _ _ l hl
    | none =>
      by_cases hm : dictMem weak leak = true
      · rw [if_pos hm]
        exact ih _ _ l hl
      · rw [if_neg hm]
        exact ih _ _ l (by simp [hl])

theorem filter_implicit_go_weak_mono (mlines : List Text) (policy : Text)
    (onto : Ontology) (leaks : List Text) :
    ∀ (weak : List (Text × List Text)) (strong : List Text) (l : Text),
      dictMem weak l = true →
      dictMem (filter_implicit_go mlines policy onto leaks weak strong).2 l = true := by
  induction leaks with
  | nil =>
    intro weak strong l hl
    simpa [filter_implicit_go] using hl
  | cons leak rest ih =>
    intro weak strong l hl
    rw [filter_implicit_go]
    cases classifyPhrases policy onto (phrases_from_method leak mlines) with
    | some ev => exact ih _ _ l (dictMem_dictInsert_of_mem weak leak l ev hl)
    | none =>
      by_cases hm : dictMem weak leak = true
      · rw [if_pos hm]
        exact ih _ _ l hl
      · rw [if_neg hm]
        exact ih _ _ l hl

theorem filter_implicit_go_spec (mlines : List Text) (policy : Text)
    (onto : Ontology) (leaks : List Text) :
    ∀ (weak : List (Text × List Text)) (strong : List Text),
      (∀ l ∈ strong, classifyPhrases policy onto (phrases_from_method l mlines) = none) →
      (∀ kv ∈ weak, classifyPhrases policy onto (phrases_from_method kv.1 mlines) = some kv.2) →
      (∀ l ∈ (filter_implicit_go mlines policy onto leaks weak strong).1,
          classifyPhrases policy onto (phrases_from_method l mlines) = none) ∧
      (∀ kv ∈ (filter_implicit_go mlines policy onto leaks weak strong).2,
          classifyPhrases policy onto (phrases_from_method kv.1 mlines) = some kv.2) ∧
      (∀ l ∈ leaks,
          l ∈ (filter_implicit_go mlines policy onto leaks weak strong).1 ∨
          dictMem (filter_implicit_go mlines policy onto leaks weak strong).2 l = true) := by
  induction leaks with
  | nil =>
    intro weak strong hS hW
    refine ⟨?_, ?_, ?_⟩
    · simpa [filter_implicit_go] using hS
    · simpa [filter_implicit_go] using hW
    · intro l hl
      simp at hl
  | cons leak rest ih =>
    intro weak strong hS hW
    rw [filter_implicit_go]
    cases hc : classifyPhrases policy onto (phrases_from_method leak mlines) with
    | some ev =>
      have hW' : ∀ kv ∈ dictInsert weak leak ev,
          classifyPhrases policy onto (phrases_from_method kv.1 mlines) = some kv.2 := by
        intro kv hkv
        rcases mem_dictInsert weak leak ev kv hkv with he | hkv'
        · rw [he]
          exact hc
        · exact hW kv hkv'
      obtain ⟨ih1, ih2, ih3⟩ := ih (dictInsert weak leak ev) strong hS hW'
      refine ⟨ih1, ih2, ?_⟩
      intro l hl
      rcases List.mem_cons.1 hl with he | hl'
      · right
        rw [he]
        exact filter_implicit_go_weak_mono mlines policy onto rest _ _ leak
          (dictMem_dictInsert_self weak leak ev)
      · exact ih3 l hl'
    | none =>
      by_cases hm : dictMem weak leak = true
      · rw [if_pos hm]
        obtain ⟨ih1, ih2, ih3⟩ := ih weak strong hS hW
        refine ⟨ih1, ih2, ?_⟩
        intro l hl
        rcases List.mem_cons.1 hl with he | hl'
        · right
          rw [he]
          exact filter_implicit_go_weak_mono mlines policy onto rest _ _ leak hm
        · exact ih3 l hl'
      · rw [if_neg hm]
        have hS' : ∀ l ∈ strong ++ [leak],
            classifyPhrases policy onto (phrases_from_method l mlines) = none := by
          intro l hl
          rcases List.mem_append.1 hl with hl' | hl'
          · exact hS l hl'
          · rw [show l = leak by simpa using hl']
            exact hc
        obtain ⟨ih1, ih2, ih3⟩ := ih weak (strong ++ [leak]) hS' hW
        refine ⟨ih1, ih2, ?_⟩
        intro l hl
        rcases List.mem_cons.1 hl with he | hl'
        · left
          rw [he]
          exact filter_implicit_go_strong_mono mlines policy onto rest _ _ leak (by simp)
        · exact ih3 l hl'

theorem filter_implicit_go_lookup (mlines : List Text) (policy : Text)
    (onto : Ontology) (leaks : List Text) :
    ∀ (weak : List (Text × List Text)) (strong : List Text) (leak : Text) (E : List Text),
      classifyPhrases policy onto (phrases_from_method leak mlines) = some E →
      (leak ∈ leaks ∨ List.lookup leak weak = some E) →
      (List.lookup leak weak = none ∨ List.lookup leak weak = some E) →
      List.lookup leak (filter_implicit_go mlines policy onto leaks weak strong).2 = some E := by
  induction leaks with
  | nil =>
    intro weak strong leak E hc hin hstate
    rcases hin with h | h
    · simp at h
    · simpa [filter_implicit_go] using h
  | cons l rest ih =>
    intro weak strong leak E hc hin hstate
    rw [filter_implicit_go]
    cases hcl : classifyPhrases policy onto (phrases_from_method l mlines) with
    | some ev =>
      by_cases he : leak = l
      · have hev : ev = E := by
          rw [← he, hc] at hcl
          injection hcl with h
          exact h.symm
        subst he
        apply ih _ strong leak E hc
        · right
          rw [hev]
          exact lookup_dictInsert_self weak leak E
        · right
          rw [hev]
          exact lookup_dictInsert_self weak leak E
      · have hne := lookup_dictInsert_ne weak l leak ev he
        apply ih _ strong leak E hc
        · rcases hin with hin | hin
          · rcases List.mem_cons.1 hin with h | h
            · exact absurd h he
            · exact Or.inl h
          · right
            rw [hne]
            exact hin
        · rw [hne]
          exact hstate
    | none =>
      have hne : leak ≠ l := by
        intro e
        rw [← e, hc] at hcl
        exact Option.noConfusion hcl
      have hin' : leak ∈ rest ∨ List.lookup leak weak = some E := by
        rcases hin with hin | hin
        · rcases List.mem_cons.1 hin with h | h
          · exact absurd h hne
          · exact Or.inl h
        · exact Or.inr hin
      by_cases hm : dictMem weak l = true
      · rw [if_pos hm]
        exact ih weak strong leak E hc hin' hstate
      · rw [if_neg hm]
        exact ih weak _ leak E hc hin' hstate

/-! ### Helper lemmas: the word-boundary matcher -/

theorem plainChar_elim (c : Char) (h : plainChar c = true) :
    unsupportedMeta c = false ∧ c ≠ '.' ∧ c ≠ '*' ∧ c ≠ '|' := by
  simp only [plainChar, Bool.not_eq_true', Bool.or_eq_false_iff,
    decide_eq_false_iff_not] at h
  exact ⟨h.1.1.1, h.1.1.2, h.1.2, h.2⟩

theorem splitPipe_no_pipe (p : Text) (h : '|' ∉ p) : splitPipe p = [p] := by
  induction p with
  | nil => rfl
  | cons c t ih =>
    simp only [List.mem_cons, not_or] at h
    have hc : ¬ c = '|' := fun e => h.1 e.symm
    rw [splitPipe, if_neg hc, ih h.2]

theorem parseBranchAux_plain (b : Text) (h : ∀ c ∈ b, plainChar c = true) :
    parseBranchAux b = some (b.map (fun c => PatElem.once (PatAtom.lit c))) := by
  induction b with
  | nil => rfl
  | cons c t ih =>
    obtain ⟨hmeta, hdot, hstar, -⟩ := plainChar_elim c (h c (by simp))
    have hatom : mkAtom c = PatAtom.lit c := by simp [mkAtom, hdot]
    cases t with
    | nil =>
      simp [parseBranchAux, hstar, hmeta, hatom]
    | cons d t2 =>
      obtain ⟨-, -, hdstar, -⟩ := plainChar_elim d (h d (by simp))
      have ih2 := ih (fun x hx => h x (by simp [hx]))
      simp [parseBranchAux, hstar, hmeta, hdstar, hatom, ih2]

theorem toPattern_plain (p : Text) (h : ∀ c ∈ p, plainChar c = true) :
    toPattern p = some [p.map (fun c => PatElem.once (PatAtom.lit c))] := by
  have hnp : '|' ∉ p := fun hm => (plainChar_elim _ (h _ hm)).2.2.2 rfl
  rw [toPattern, splitPipe_no_pipe p hnp]
  simp [parseAll, parseBranchAux_plain p h]

theorem seqEnds_lits (cs : Text) :
    ∀ t : Text, seqEnds (cs.map (fun c => PatElem.once (PatAtom.lit c))) t
      = if lowerText (t.take cs.length) = lowerText cs then [cs.length] else [] := by
  induction cs with
  | nil =>
    intro t
    simp [seqEnds, lowerText]
  | cons c cs ih =>
    intro t
    cases t with
    | nil =>
      simp [seqEnds, lowerText]
    | cons d t2 =>
      have ih2 := ih t2
      simp only [lowerText] at ih2
      simp only [List.map_cons, seqEnds, atomMatches, List.length_cons,
        List.take_succ_cons, lowerText, List.cons_eq_cons]
      rw [ih2]
      by_cases hm : c.toLower = d.toLower
      · have hb : (c.toLower == d.toLower) = true := beq_iff_eq.2 hm
        rw [if_pos hb]
        simp only [eq_true hm.symm, true_and]
        by_cases hP : List.map Char.toLower (List.take cs.length t2)
            = List.map Char.toLower cs
        · rw [if_pos hP, if_pos hP]
          simp
        · rw [if_neg hP, if_neg hP]
          simp
      · have hb : (c.toLower == d.toLower) = false := beq_eq_false_iff_ne.2 hm
        have hd2 : ¬ d.toLower = c.toLower := fun e => hm e.symm
        rw [if_neg (by simp [hb])]
        rw [if_neg (by simp [hd2])]

theorem patternSearch_single_empty (b : List PatElem) :
    patternSearch [b] [] = false := by
  have hb : boundaryAt [] 0 = false := rfl
  simp [patternSearch, List.range_succ, List.range_zero, branchHit, hb]

theorem wordBoundSearch_empty_of_no_pipe (a : Text) (h : '|' ∉ a) :
    wordBoundSearch (toPattern a) [] = false := by
  rw [toPattern, splitPipe_no_pipe a h]
  cases hp : parseBranchAux a with
  | none => simp [parseAll, hp, wordBoundSearch]
  | some b => simp [parseAll, hp, wordBoundSearch, patternSearch_single_empty]

/-! ### Helper lemmas: the multiline mapping substitution -/

theorem firstSplitOn_decomp (c : Char) :
    ∀ (t : Text) (pr : Text × Text), firstSplitOn c t = some pr →
      t = pr.1 ++ c :: pr.2 ∧ c ∉ pr.1 := by
  intro t
  induction t with
  | nil =>
    intro pr h
    simp [firstSplitOn] at h
  | cons x xs ih =>
    intro pr h
    by_cases hx : x = c
    · rw [firstSplitOn, if_pos hx] at h
      injection h with h
      rw [← h]
      subst hx
      exact ⟨rfl, by simp⟩
    · rw [firstSplitOn, if_neg hx] at h
      cases hfs : firstSplitOn c xs with
      | none =>
        rw [hfs] at h
        exact Option.noConfusion h
      | some pr2 =>
        rw [hfs] at h
        injection h with h
        obtain ⟨h1, h2⟩ := ih pr2 hfs
        rw [← h]
        refine ⟨by rw [List.cons_append, ← h1], ?_⟩
        simp only [List.mem_cons, not_or]
        exact ⟨fun e => hx e.symm, h2⟩

theorem takeWhile_upto_quote (pre post : Text) (h : '\"' ∉ pre) :
    (pre ++ '\"' :: post).takeWhile (fun c => c != '\"') = pre := by
  induction pre with
  | nil => simp [List.takeWhile_cons]
  | cons y pre ih =>
    simp only [List.mem_cons, not_or] at h
    have hy : (y != '\"') = true := bne_iff_ne.2 (fun e => h.1 e.symm)
    simp [List.takeWhile_cons, hy, ih h.2]

theorem lineParts_decomp_comma (pre frag : Text) (h : '\"' ∉ pre) :
    lineParts ('\"' :: (pre ++ '\"' :: ',' :: frag))
      = if pre.isEmpty then none else some (pre, frag) := by
  unfold lineParts
  split
  · rename_i rest heq
    injection heq with h1 h2
    subst h2
    simp only [takeWhile_upto_quote pre (',' :: frag) h, List.drop_left]
  · rename_i hne
    exact absurd rfl (hne (pre ++ '\"' :: ',' :: frag))

theorem lineParts_decomp_other (pre post : Text) (h : '\"' ∉ pre)
    (hp : post.head? ≠ some ',') :
    lineParts ('\"' :: (pre ++ '\"' :: post)) = none := by
  unfold lineParts
  split
  · rename_i rest heq
    injection heq with h1 h2
    subst h2
    simp only [takeWhile_upto_quote pre post h, List.drop_left]
    cases post with
    | nil => rfl
    | cons d rest2 =>
      have hd : d ≠ ',' := fun e => hp (by simp [e])
      split
      · rename_i frag2 heq2
        injection heq2 with hq1 hq2
        injection hq2 with hq2 hq3
        exact absurd hq2 hd
      · rfl
  · rename_i hne
    exact absurd rfl (hne (pre ++ '\"' :: post))

theorem lineParts_not_quote (x : Char) (t : Text) (h : x ≠ '\"') :
    lineParts (x :: t) = none := by
  unfold lineParts
  split
  · rename_i rest heq
    injection heq with h1 h2
    exact absurd h1 h
  · rfl

theorem spanCapture_chars (ls : List Text) :
    ∀ (t : Text) (pr : List Text × Nat), spanCapture t ls = some pr →
      ∀ a ∈ pr.1, ∀ ch ∈ a, ch ∈ t ∨ ∃ l ∈ ls, ch ∈ l := by
  induction ls with
  | nil =>
    intro t pr h a ha ch hch
    cases hfs : firstSplitOn '\"' t with
    | none =>
      rw [spanCapture, hfs] at h
      exact Option.noConfusion h
    | some pr0 =>
      obtain ⟨cap0, post0⟩ := pr0
      have hdec : t = cap0 ++ '\"' :: post0 :=
        (firstSplitOn_decomp '\"' t (cap0, post0) hfs).1
      rw [spanCapture, hfs] at h
      cases post0 with
      | nil => exact Option.noConfusion h
      | cons d rest2 =>
        have h2 : (if d = ',' then some ([cap0], (0 : Nat)) else none) = some pr := h
        by_cases hd : d = ','
        · rw [if_pos hd] at h2
          injection h2 with h2
          rw [← h2] at ha
          have ha2 : a = cap0 := by simpa using ha
          subst ha2
          left
          rw [hdec]
          exact List.mem_append.2 (Or.inl hch)
        · rw [if_neg hd] at h2
          exact Option.noConfusion h2
  | cons l2 ls2 ih =>
    intro t pr h a ha ch hch
    cases hfs : firstSplitOn '\"' t with
    | some pr0 =>
      obtain ⟨cap0, post0⟩ := pr0
      have hdec : t = cap0 ++ '\"' :: post0 :=
        (firstSplitOn_decomp '\"' t (cap0, post0) hfs).1
      rw [spanCapture, hfs] at h
      cases post0 with
      | nil => exact Option.noConfusion h
      | cons d rest2 =>
        have h2 : (if d = ',' then some ([cap0], (0 : Nat)) else none) = some pr := h
        by_cases hd : d = ','
        · rw [if_pos hd] at h2
          injection h2 with h2
          rw [← h2] at ha
          have ha2 : a = cap0 := by simpa using ha
          subst ha2
          left
          rw [hdec]
          exact List.mem_append.2 (Or.inl hch)
        · rw [if_neg hd] at h2
          exact Option.noConfusion h2
    | none =>
      rw [spanCapture, hfs] at h
      obtain ⟨pr2, hpr2, he⟩ := Option.map_eq_some'.1 h
      rw [← he] at ha
      rcases List.mem_cons.1 ha with ha2 | ha2
      · subst ha2
        exact Or.inl hch
      · rcases ih l2 pr2 hpr2 a ha2 ch hch with hc | ⟨l, hl, hc⟩
        · exact Or.inr ⟨l2, by simp, hc⟩
        · exact Or.inr ⟨l, by simp [hl], hc⟩

theorem spanCapture_close_nil (t : Text) (ls : List Text) (cap : Text)
    (hfs : firstSplitOn '\"' t = some (cap, [])) :
    spanCapture t ls = none := by
  cases ls with
  | nil => rw [spanCapture, hfs]
  | cons l2 ls2 => rw [spanCapture, hfs]

theorem spanCapture_close_cons (t : Text) (ls : List Text) (cap : Text)
    (d : Char) (rest : Text)
    (hfs : firstSplitOn '\"' t = some (cap, d :: rest)) :
    spanCapture t ls = (if d = ',' then some ([cap], (0 : Nat)) else none) := by
  cases ls with
  | nil => rw [spanCapture, hfs]
  | cons l2 ls2 => rw [spanCapture, hfs]

theorem subLinesF_nil (fuel : Nat) : subLinesF fuel [] = [] := by
  cases fuel <;> rfl

theorem subLinesF_zero (l : Text) (ls : List Text) :
    subLinesF 0 (l :: ls) = l :: ls := rfl

theorem subLinesF_succ_nil (fuel : Nat) (ls : List Text) :
    subLinesF (fuel + 1) ([] :: ls) = [] :: subLinesF fuel ls := rfl

theorem subLinesF_succ_cons (fuel : Nat) (x : Char) (t : Text) (ls : List Text) :
    subLinesF (fuel + 1) ((x :: t) :: ls) =
      (if x = '\"' then
        match spanCapture t ls with
        | some pr =>
          if pr.1 = [[]] then (x :: t) :: subLinesF fuel ls
          else pr.1 ++ subLinesF fuel (ls.drop pr.2)
        | none => (x :: t) :: subLinesF fuel ls
      else (x :: t) :: subLinesF fuel ls) := rfl

theorem subLinesF_chars (fuel : Nat) :
    ∀ (ls : List Text), ∀ a ∈ subLinesF fuel ls, ∀ ch ∈ a, ∃ l ∈ ls, ch ∈ l := by
  induction fuel with
  | zero =>
    intro ls a ha ch hch
    cases ls with
    | nil => simp [subLinesF_nil] at ha
    | cons l ls2 => exact ⟨a, by simpa [subLinesF_zero] using ha, hch⟩
  | succ fuel ih =>
    intro ls a ha ch hch
    cases ls with
    | nil => simp [subLinesF_nil] at ha
    | cons l ls2 =>
      cases l with
      | nil =>
        rw [subLinesF_succ_nil] at ha
        rcases List.mem_cons.1 ha with ha2 | ha2
        · subst ha2
          simp at hch
        · obtain ⟨l, hl, hc⟩ := ih ls2 a ha2 ch hch
          exact ⟨l, by simp [hl], hc⟩
      | cons x t =>
        rw [subLinesF_succ_cons] at ha
        by_cases hx : x = '\"'
        · rw [if_pos hx] at ha
          cases hsc : spanCapture t ls2 with
          | none =>
            rw [hsc] at ha
            have ha1 : a ∈ (x :: t) :: subLinesF fuel ls2 := ha
            rcases List.mem_cons.1 ha1 with ha2 | ha2
            · subst ha2
              exact ⟨x :: t, by simp, hch⟩
            · obtain ⟨l, hl, hc⟩ := ih ls2 a ha2 ch hch
              exact ⟨l, by simp [hl], hc⟩
          | some pr =>
            rw [hsc] at ha
            have ha1 : a ∈ (if pr.1 = [[]] then (x :: t) :: subLinesF fuel ls2
                else pr.1 ++ subLinesF fuel (ls2.drop pr.2)) := ha
            by_cases hemp : pr.1 = [[]]
            · rw [if_pos hemp] at ha1
              rcases List.mem_cons.1 ha1 with ha2 | ha2
              · subst ha2
                exact ⟨x :: t, by simp, hch⟩
              · obtain ⟨l, hl, hc⟩ := ih ls2 a ha2 ch hch
                exact ⟨l, by simp [hl], hc⟩
            · rw [if_neg hemp] at ha1
              rcases List.mem_append.1 ha1 with ha2 | ha2
              · rcases spanCapture_chars ls2 t pr hsc a ha2 ch hch with hc | ⟨l, hl, hc⟩
                · exact ⟨x :: t, by simp, List.mem_cons_of_mem x hc⟩
                · exact ⟨l, by simp [hl], hc⟩
              · obtain ⟨l, hl, hc⟩ := ih (ls2.drop pr.2) a ha2 ch hch
                exact ⟨l, by simp [List.mem_of_mem_drop hl], hc⟩
        · rw [if_neg hx] at ha
          rcases List.mem_cons.1 ha with ha2 | ha2
          · subst ha2
            exact ⟨x :: t, by simp, hch⟩
          · obtain ⟨l, hl, hc⟩ := ih ls2 a ha2 ch hch
            exact ⟨l, by simp [hl], hc⟩

theorem subLinesF_selfContained (fuel : Nat) :
    ∀ (ls : List Text), ls.length ≤ fuel →
      (∀ l ∈ ls, lineSelfContained l = true) →
      subLinesF fuel ls = ls.map parseLine := by
  induction fuel with
  | zero =>
    intro ls hlen h
    have hnil : ls = [] := List.length_eq_zero.1 (Nat.le_zero.1 hlen)
    subst hnil
    exact subLinesF_nil 0
  | succ fuel ih =>
    intro ls hlen h
    cases ls with
    | nil => rfl
    | cons l ls2 =>
      have hlen2 : ls2.length ≤ fuel := by
        simp only [List.length_cons] at hlen
        omega
      have hrest : ∀ l2 ∈ ls2, lineSelfContained l2 = true :=
        fun l2 hl2 => h l2 (List.mem_cons_of_mem l hl2)
      have hl := h l (List.mem_cons_self l ls2)
      cases l with
      | nil =>
        rw [subLinesF_succ_nil, ih ls2 hlen2 hrest]
        simp [parseLine, lineParts]
      | cons x t =>
        rw [subLinesF_succ_cons]
        by_cases hx : x = '\"'
        · rw [if_pos hx]
          subst hx
          have hfs2 : (firstSplitOn '\"' t).isSome = true := by
            simpa [lineSelfContained] using hl
          obtain ⟨pr0, hfs⟩ := Option.isSome_iff_exists.1 hfs2
          obtain ⟨cap0, post0⟩ := pr0
          have hdec : t = cap0 ++ '\"' :: post0 :=
            (firstSplitOn_decomp '\"' t (cap0, post0) hfs).1
          have hq : '\"' ∉ cap0 := (firstSplitOn_decomp '\"' t (cap0, post0) hfs).2
          cases post0 with
          | nil =>
            have hsc : spanCapture t ls2 = none :=
              spanCapture_close_nil t ls2 cap0 hfs
            rw [hsc]
            show ('\"' :: t) :: subLinesF fuel ls2
                = List.map parseLine (('\"' :: t) :: ls2)
            rw [ih ls2 hlen2 hrest]
            have hlp : lineParts ('\"' :: t) = none := by
              rw [hdec]
              exact lineParts_decomp_other cap0 [] hq (by simp)
            simp [parseLine, hlp]
          | cons d rest2 =>
            by_cases hd : d = ','
            · subst hd
              have hsc : spanCapture t ls2 = some ([cap0], 0) := by
                rw [spanCapture_close_cons t ls2 cap0 ',' rest2 hfs]
                simp
              rw [hsc]
              show (if [cap0] = [[]] then ('\"' :: t) :: subLinesF fuel ls2
                    else [cap0] ++ subLinesF fuel (ls2.drop 0))
                  = List.map parseLine (('\"' :: t) :: ls2)
              by_cases hpre : cap0 = []
              · rw [if_pos (by rw [hpre])]
                rw [ih ls2 hlen2 hrest]
                have hlp : lineParts ('\"' :: t) = none := by
                  rw [hdec, lineParts_decomp_comma cap0 rest2 hq,
                    if_pos (by simp [hpre])]
                simp [parseLine, hlp]
              · rw [if_neg (by simp [hpre]), List.drop_zero, ih ls2 hlen2 hrest]
                have hlp : parseLine ('\"' :: t) = cap0 := by
                  unfold parseLine
                  rw [hdec, lineParts_decomp_comma cap0 rest2 hq,
                    if_neg (by simp [hpre])]
                simp [hlp]
            · have hsc : spanCapture t ls2 = none := by
                rw [spanCapture_close_cons t ls2 cap0 d rest2 hfs, if_neg hd]
              rw [hsc]
              show ('\"' :: t) :: subLinesF fuel ls2
                  = List.map parseLine (('\"' :: t) :: ls2)
              rw [ih ls2 hlen2 hrest]
              have hlp : lineParts ('\"' :: t) = none := by
                rw [hdec]
                exact lineParts_decomp_other cap0 (d :: rest2) hq (by simp [hd])
              simp [parseLine, hlp]
        · rw [if_neg hx, ih ls2 hlen2 hrest]
          simp [parseLine, lineParts_not_quote x t hx]

theorem subLines_selfContained (mlines : List Text)
    (h : ∀ l ∈ mlines, lineSelfContained l = true) :
    subLines mlines = mlines.map parseLine :=
  subLinesF_selfContained mlines.length mlines (le_refl _) h

/-! ### Claim theorems -/

/-- Claim C1 (counterexample): `phrases_from_method` does not implement
"the line's pattern fragment is a substring of the leak".  For the leak
`foo()` and the single mapping line `"data",foo`, the fragment `foo` is
a substring of the leak, so the claimed semantics yields the phrase
`data`; the code instead tests whether the leak is a substring of the
whole line, which fails, yielding the empty set. -/
theorem phrases_from_method_direction_cex :
    phrases_from_method "foo()".data ["\"data\",foo".data] = [] ∧
    phrasesForLeak_spec "foo()".data ["\"data\",foo".data] = ["data".data] ∧
    phrases_from_method "foo()".data ["\"data\",foo".data]
      ≠ phrasesForLeak_spec "foo()".data ["\"data\",foo".data] := by
  decide

/-- Claim C1 (amended): a phrase belongs to `phrases_from_method leak
mappings` exactly when some mapping line contains the full leak
identifier as a literal substring (the containment is leak-in-line,
against the whole line) and that line's phrase substitution yields the
phrase. -/
theorem phrases_from_method_mem (method p : Text) (mlines : List Text) :
    p ∈ phrases_from_method method mlines ↔
      ∃ l ∈ mlines, containsSub method l = true ∧ parseLine l = p := by
  simp only [phrases_from_method, List.mem_dedup, List.mem_map, List.mem_filter]
  constructor
  · rintro ⟨l, ⟨hl, hc⟩, hp⟩
    exact ⟨l, hl, hc, hp⟩
  · rintro ⟨l, hl, hc, hp⟩
    exact ⟨l, ⟨hl, hc⟩, hp⟩

theorem phrases_from_method_mem_witness :
    "location data".data ∈
      phrases_from_method "getLoc2".data ["\"location data\",getLoc2".data] :=
  (phrases_from_method_mem "getLoc2".data "location data".data
      ["\"location data\",getLoc2".data]).mpr
    ⟨"\"location data\",getLoc2".data, by decide, by decide, by decide⟩

/-- Claim C2: a phrase whose normalized form has no node in the
taxonomy yields an empty ancestor sequence (not an error), and the
classifier's phrase loop continues with the remaining phrases of the
leak. -/
theorem missing_taxonomy_node_skipped (onto : Ontology) (phrase : Text)
    (h : onto.lookup (normalizePhrase phrase) = none)
    (policy : Text) (ps : List Text) :
    ancestorsOf onto phrase = [] ∧
    classifyPhrases policy onto (phrase :: ps) = classifyPhrases policy onto ps := by
  have ha : ancestorsOf onto phrase = [] := by
    simp [ancestorsOf, h]
  exact ⟨ha, by simp [classifyPhrases, ha]⟩

theorem missing_taxonomy_node_skipped_witness :
    ancestorsOf [("aa".data, ["z".data])] "location data".data = [] ∧
    classifyPhrases "pp".data [("aa".data, ["z".data])]
        ("location data".data :: ["q".data])
      = classifyPhrases "pp".data [("aa".data, ["z".data])] ["q".data] :=
  missing_taxonomy_node_skipped [("aa".data, ["z".data])] "location data".data
    (by decide) "pp".data ["q".data]

/-- Claim C3: partition invariant of `filter_implicit` — the strong
violations and the weak-violation keys are disjoint, and every input
leak lands in exactly one of the two outputs. -/
theorem filter_implicit_partition (leaks mlines : List Text) (policy : Text)
    (onto : Ontology) :
    (∀ l, ¬ (l ∈ (filter_implicit leaks mlines policy onto).1 ∧
             dictMem (filter_implicit leaks mlines policy onto).2 l = true)) ∧
    (∀ l ∈ leaks,
        l ∈ (filter_implicit leaks mlines policy onto).1 ∨
        dictMem (filter_implicit leaks mlines policy onto).2 l = true) := by
  obtain ⟨hS, hW, hcov⟩ := filter_implicit_go_spec mlines policy onto leaks [] []
    (by simp) (by simp)
  refine ⟨?_, hcov⟩
  rintro l ⟨hl1, hl2⟩
  obtain ⟨kv, hkv, hbeq⟩ := List.any_eq_true.1 hl2
  have hkl : kv.1 = l := beq_iff_eq.1 hbeq
  have h1 := hS l hl1
  have h2 := hW kv hkv
  rw [hkl, h1] at h2
  exact Option.noConfusion h2

theorem filter_implicit_partition_witness :
    "a".data ∈ (filter_implicit ["a".data] [] [] []).1 ∨
      dictMem (filter_implicit ["a".data] [] [] []).2 "a".data = true :=
  (filter_implicit_partition ["a".data] [] [] []).2 "a".data (by decide)

/-- Claim C4 (counterexample): `get_leaks` does not keep the content
between the first `'<'` and the last `'>'`.  On the statement value
`x<a>y<b>z` the first-to-last reading yields `a>y<b`, while the greedy
regex of the code yields `b`. -/
theorem get_leaks_first_angle_cex :
    get_leaks ["x<a>y<b>z".data] = ["b".data] ∧
    betweenFirstLtLastGt "x<a>y<b>z".data = some "a>y<b".data ∧
    ("b".data : Text) ≠ "a>y<b".data := by
  decide

/-- Claim C4 (amended): on a newline-free statement value, `get_leaks`
keeps the content between the *last* `'<'` that is followed by a
nonempty capture ending at the last `'>'` of the value, and that last
`'>'`; everything outside is stripped.  The decomposition below pins
exactly that bracket pair: `post` holds no further `'>'`, the capture is
nonempty, and no later `'<'` starts a nonempty capture. -/
theorem get_leaks_last_angle (pre cap post : Text) (hpre : '\n' ∉ pre)
    (hcap : '\n' ∉ cap) (hpost : '\n' ∉ post) (hgt : '>' ∉ post)
    (hne : cap ≠ []) (hlt : '<' ∉ cap.dropLast) :
    get_leaks [pre ++ '<' :: (cap ++ '>' :: post)] = [cap] := by
  simp [get_leaks, stripStatement_decomp pre cap post hpre hcap hpost hgt hne hlt]

theorem get_leaks_last_angle_witness :
    get_leaks ["ab".data ++ '<' :: ("sig".data ++ '>' :: "cd".data)] = ["sig".data] :=
  get_leaks_last_angle "ab".data "sig".data "cd".data (by decide) (by decide)
    (by decide) (by decide) (by decide) (by decide)

/-- Claim C5 (counterexample): with the Scenario B inputs, the recorded
weak-violation evidence is the underscored taxonomy name
`personal_data`, not the denormalized phrase `personal data`. -/
theorem weak_evidence_denormalized_cex :
    (filter_implicit ["getLoc".data] ["\"location data\",getLoc".data]
        "we collect personal data".data
        [("location_data".data,
          ["http://x#location_data".data, "http://x#personal_data".data,
           "http://www.w3.org/2002/07/owl#Thing".data])]).2
      = [("getLoc".data, ["personal_data".data])] ∧
    ("personal_data".data : Text) ≠ "personal data".data := by
  decide

/-- Claim C5 (amended): the underscore-to-space denormalization is used
only for the policy comparison; every recorded evidence term is kept in
its raw, underscored ancestor form (an element of the cleaned ancestor
list of one of the leak's phrases) whose denormalized form occurs in the
policy. -/
theorem weak_evidence_keeps_underscores (leaks mlines : List Text) (policy : Text)
    (onto : Ontology) (kv : Text × List Text)
    (hkv : kv ∈ (filter_implicit leaks mlines policy onto).2) :
    ∃ p ∈ phrases_from_method kv.1 mlines,
      kv.2 = occSubset policy onto p ∧
      ∀ a ∈ kv.2, a ∈ cleanAncestors onto p ∧
        wordBoundSearch (toPattern (underscoreToSpace a)) policy = true := by
  obtain ⟨-, hW, -⟩ := filter_implicit_go_spec mlines policy onto leaks [] []
    (by simp) (by simp)
  have hc := hW kv hkv
  obtain ⟨p, hp, he⟩ := classifyPhrases_some policy onto _ kv.2 hc
  refine ⟨p, hp, he, ?_⟩
  intro a ha
  rw [he] at ha
  have hm := List.mem_filter.1 ha
  exact ⟨hm.1, hm.2⟩

theorem weak_evidence_keeps_underscores_witness :
    ∃ p ∈ phrases_from_method "getLoc".data ["\"location data\",getLoc".data],
      ["personal_data".data] = occSubset "we collect personal data".data
          [("location_data".data,
            ["http://x#location_data".data, "http://x#personal_data".data,
             "http://www.w3.org/2002/07/owl#Thing".data])] p ∧
      ∀ a ∈ (["personal_data".data] : List Text),
        a ∈ cleanAncestors
            [("location_data".data,
              ["http://x#location_data".data, "http://x#personal_data".data,
               "http://www.w3.org/2002/07/owl#Thing".data])] p ∧
        wordBoundSearch (toPattern (underscoreToSpace a))
            "we collect personal data".data = true :=
  weak_evidence_keeps_underscores ["getLoc".data] ["\"location data\",getLoc".data]
    "we collect personal data".data
    [("location_data".data,
      ["http://x#location_data".data, "http://x#personal_data".data,
       "http://www.w3.org/2002/07/owl#Thing".data])]
    ("getLoc".data, ["personal_data".data]) (by decide)

/-- Claim C6 (counterexample): the phrase is interpolated into the
search pattern unescaped, so its characters are pattern syntax.  The
phrase `a.c` matches the text `abc` (`.` consumes the `b`) and the
phrase `a*b` matches the text `b` (`*` repeats the `a` zero times),
although neither occurs literally as a whole word; consequently `a.c`
lands in the policy phrase set of the policy text `abc`. -/
theorem phrase_match_not_literal_cex :
    wordBoundSearch (toPattern "a.c".data) "abc".data = true ∧
    literalWholeWordMatch "a.c".data "abc".data = false ∧
    wordBoundSearch (toPattern "a*b".data) "b".data = true ∧
    literalWholeWordMatch "a*b".data "b".data = false ∧
    get_policy_phrases "abc".data ["\"a.c\",api".data] = ["a.c".data] := by
  decide

/-- Claim C6 (amended): the matcher is a case-insensitive whole-word
search with the phrase interpolated as pattern syntax, not as a
literal; it coincides with the literal whole-word reading exactly for
phrases that contain no regex metacharacter at all (no `.`, `*`, `|`,
nor any of the unmodelled metacharacters). -/
theorem word_match_literal_of_plain (phrase text : Text)
    (h : ∀ c ∈ phrase, plainChar c = true) :
    wordBoundSearch (toPattern phrase) text = literalWholeWordMatch phrase text := by
  rw [toPattern_plain phrase h]
  simp only [wordBoundSearch, patternSearch]
  unfold literalWholeWordMatch
  apply congrArg
  funext s
  simp only [branchHit, Bool.not_true, Bool.false_or]
  rw [seqEnds_lits phrase (text.drop s)]
  by_cases hc : lowerText ((text.drop s).take phrase.length) = lowerText phrase
  · rw [if_pos hc]
    simp [hc]
  · rw [if_neg hc]
    simp [hc]

theorem word_match_literal_of_plain_witness :
    wordBoundSearch (toPattern "ab".data) "x ab y".data
      = literalWholeWordMatch "ab".data "x ab y".data :=
  word_match_literal_of_plain "ab".data "x ab y".data (by decide)

/-- Claim C7: first-match-wins tie-break of the phrase loop — when the
leak's phrase set decomposes as `qs ++ p :: rest` with every phrase of
`qs` yielding an empty occurring-ancestor subset and `p` a nonempty one,
the weak evidence recorded for the leak is exactly `p`'s occurring
subset, and the phrases of `rest` are never consulted (the loop result
is the same as if they were absent). -/
theorem filter_implicit_first_phrase_wins (mlines : List Text) (policy : Text)
    (onto : Ontology) (leak : Text) (leaks : List Text) (qs : List Text)
    (p : Text) (rest : List Text)
    (hdec : phrases_from_method leak mlines = qs ++ p :: rest)
    (h1 : ∀ q ∈ qs, occSubset policy onto q = [])
    (h2 : occSubset policy onto p ≠ [])
    (hmem : leak ∈ leaks) :
    List.lookup leak (filter_implicit leaks mlines policy onto).2
        = some (occSubset policy onto p) ∧
    classifyPhrases policy onto (qs ++ p :: rest)
        = classifyPhrases policy onto (qs ++ [p]) := by
  have hc : classifyPhrases policy onto (phrases_from_method leak mlines)
      = some (occSubset policy onto p) := by
    rw [hdec]
    exact classifyPhrases_first policy onto qs p rest h1 h2
  constructor
  · exact filter_implicit_go_lookup mlines policy onto leaks [] [] leak
      (occSubset policy onto p) hc (Or.inl hmem) (Or.inl rfl)
  · rw [classifyPhrases_first policy onto qs p rest h1 h2,
      classifyPhrases_first policy onto qs p [] h1 h2]

theorem filter_implicit_first_phrase_wins_witness :
    List.lookup "m1".data (filter_implicit ["m1".data]
        ["\"aa\",m1".data, "\"bb\",m1".data, "\"cc\",m1".data] "pd".data
        [("bb".data, ["http://x#pd".data]), ("cc".data, ["http://x#qd".data])]).2
      = some (occSubset "pd".data
          [("bb".data, ["http://x#pd".data]), ("cc".data, ["http://x#qd".data])]
          "bb".data) ∧
    classifyPhrases "pd".data
        [("bb".data, ["http://x#pd".data]), ("cc".data, ["http://x#qd".data])]
        (["aa".data] ++ "bb".data :: ["cc".data])
      = classifyPhrases "pd".data
        [("bb".data, ["http://x#pd".data]), ("cc".data, ["http://x#qd".data])]
        (["aa".data] ++ ["bb".data]) :=
  filter_implicit_first_phrase_wins
    ["\"aa\",m1".data, "\"bb\",m1".data, "\"cc\",m1".data] "pd".data
    [("bb".data, ["http://x#pd".data]), ("cc".data, ["http://x#qd".data])]
    "m1".data ["m1".data] ["aa".data] "bb".data ["cc".data]
    (by decide) (by decide) (by decide) (by decide)

/-- Claim C8: `filter_explicit` never adds, reorders or fabricates
leaks — its output is a sublist (subsequence in the input's order) of
the input leak sequence. -/
theorem filter_explicit_sublist (leaks mlines policy_phrases : List Text) :
    List.Sublist (filter_explicit leaks mlines policy_phrases) leaks := by
  unfold filter_explicit
  split
  · exact List.Sublist.refl leaks
  · exact List.filter_sublist leaks

/-- Claim C9 (counterexample): permissiveness fails as claimed.  The
well-formed mapping line `"||",api` yields the phrase `||`;
interpolated unescaped it becomes a pattern whose empty middle
alternation branch carries no word-boundary assertion and matches the
empty policy, so the policy phrase set is nonempty and the explicit
filter drops the leak `api` although the policy is empty. -/
theorem empty_policy_drop_cex :
    get_policy_phrases [] ["\"||\",api".data] = ["||".data] ∧
    filter_explicit ["api".data] ["\"||\",api".data]
        (get_policy_phrases [] ["\"||\",api".data]) = [] := by
  decide

/-- Claim C9 (amended): with an empty policy text a mapping phrase can
still enter the policy phrase set when its interpolated pattern
matches the empty string (an alternation branch without `\b`); for
mapping texts containing no `|` character the claimed permissiveness
does hold: the policy phrase set is empty and `filter_explicit`
returns its input unchanged. -/
theorem empty_policy_permissive_no_pipe (mlines leaks : List Text)
    (h : ∀ l ∈ mlines, '|' ∉ l) :
    get_policy_phrases [] mlines = [] ∧
    filter_explicit leaks mlines (get_policy_phrases [] mlines) = leaks := by
  have h1 : get_policy_phrases [] mlines = [] := by
    unfold get_policy_phrases
    rw [List.filter_eq_nil_iff]
    intro a ha
    have ha2 : a ∈ subLines mlines := List.mem_dedup.1 ha
    have hnp : '|' ∉ a := by
      intro hm
      obtain ⟨l, hl, hc⟩ := subLinesF_chars mlines.length mlines a ha2 '|' hm
      exact h l hl hc
    simp [wordBoundSearch_empty_of_no_pipe a hnp]
  refine ⟨h1, ?_⟩
  rw [h1]
  unfold filter_explicit
  rw [if_pos (Or.inl rfl)]

theorem empty_policy_permissive_no_pipe_witness :
    get_policy_phrases [] ["\"location data\",getLoc3".data] = [] ∧
    filter_explicit ["x".data] ["\"location data\",getLoc3".data]
        (get_policy_phrases [] ["\"location data\",getLoc3".data]) = ["x".data] :=
  empty_policy_permissive_no_pipe ["\"location data\",getLoc3".data] ["x".data]
    (by decide)

/-- Claim C10 (counterexample): blank or malformed mapping lines are
not excluded from matching.  The malformed line `xfoox` (no quoted
phrase) contributes itself as the phrase of the leak `foo`, and the
malformed line `garbage line` becomes a candidate policy phrase and is
reported in the policy phrase set. -/
theorem malformed_line_excluded_cex :
    wellFormedLine "xfoox".data = false ∧
    phrases_from_method "foo".data ["xfoox".data] = ["xfoox".data] ∧
    get_policy_phrases "a garbage line".data ["garbage line".data]
      = ["garbage line".data] := by
  decide

/-- Claim C10 (amended): a line that does not match the mapping-line
pattern passes through the per-line phrase substitution unchanged and
participates in matching with its full raw text: it contributes itself
as a phrase to any leak it contains; and provided every line opening a
quoted phrase closes the quote on the same line (the class `[^"]+`
also matches newlines, so an unclosed quote merges following lines
into one cross-line match that can swallow them), the malformed line
also survives verbatim as a candidate policy phrase. -/
theorem malformed_line_participates (l method policy : Text) (mlines : List Text)
    (hl : wellFormedLine l = false) (hmem : l ∈ mlines) :
    parseLine l = l ∧
    (containsSub method l = true → l ∈ phrases_from_method method mlines) ∧
    ((∀ l2 ∈ mlines, lineSelfContained l2 = true) →
      wordBoundSearch (toPattern l) policy = true →
      l ∈ get_policy_phrases policy mlines) := by
  have hparse : parseLine l = l := by
    unfold wellFormedLine at hl
    unfold parseLine
    cases hc : lineParts l with
    | none => rfl
    | some pr =>
      rw [hc] at hl
      simp at hl
  refine ⟨hparse, ?_, ?_⟩
  · intro hc
    unfold phrases_from_method
    rw [List.mem_dedup]
    exact List.mem_map.2 ⟨l, List.mem_filter.2 ⟨hmem, hc⟩, hparse⟩
  · intro hsc hocc
    unfold get_policy_phrases
    refine List.mem_filter.2 ⟨?_, hocc⟩
    rw [List.mem_dedup, subLines_selfContained mlines hsc]
    exact List.mem_map.2 ⟨l, hmem, hparse⟩

theorem malformed_line_participates_witness :
    "xfoox".data ∈ phrases_from_method "foo".data ["xfoox".data] ∧
    "xfoox".data ∈ get_policy_phrases "a xfoox b".data ["xfoox".data] :=
  ⟨(malformed_line_participates "xfoox".data "foo".data "a xfoox b".data
      ["xfoox".data] (by decide) (by decide)).2.1 (by decide),
   (malformed_line_participates "xfoox".data "foo".data "a xfoox b".data
      ["xfoox".data] (by decide) (by decide)).2.2 (by decide) (by decide)⟩
